import Mathlib

/-!
Verification of the EER event-stream decoder (crates/eer/src/lib.rs).

The Rust code is shallowly embedded: bytes are `Nat`s below 256, machine
integers are `Nat` (the places where 32-bit overflow could matter are noted
at each definition), fallible operations return `Option` (`none` models a
Rust panic) or `Except EerError` (modelling `anyhow::Result`).
-/

/-- BitStream (lib.rs lines 33-36): a borrowed byte buffer plus the index of
the next bit to read, counted from the start of the buffer. Bytes are `Nat`s
(values below 256 in every use). -/
structure BitStream where
  buffer : List Nat
  bit_pos : Nat
  deriving DecidableEq, Repr

/-- BitStream::new (lib.rs lines 40-45). -/
def BitStream.new (data_bytes : List Nat) : BitStream :=
  { buffer := data_bytes, bit_pos := 0 }

/-- The chunk-assembly loop of BitStream::get_bits (lib.rs lines 56-59):
OR together up to 4 bytes starting at `byte_index`, byte `i` shifted left by
`8 * i`. Defined only for `byte_index ≤ buffer.length`; the caller guards
this (`buffer.len() - byte_index` underflows, and the index is out of
bounds, otherwise). `getD _ 0` can only be exercised at in-range indices
here, so it coincides with the Rust indexing. -/
def readChunk (buffer : List Nat) (byte_index : Nat) : Nat :=
  (List.range (min 4 (buffer.length - byte_index))).foldl
    (fun c i => c ||| ((buffer.getD (byte_index + i) 0) <<< (i * 8))) 0

/-- BitStream::get_bits (lib.rs lines 49-67). Returns the value and the
advanced stream. `none` models the Rust panic that occurs when
`bit_pos / 8 > buffer.len()`: there `self.buffer.len() - byte_index`
underflows (debug) or the byte index is out of bounds (release). The
`n = 32` special case mirrors the u32 `!0` mask; for `n < 32` the mask
`(1 <<< n) - 1` agrees with the u32 value. All arithmetic stays below
`2 ^ 32` exactly as in the u32 source, so `Nat` is a faithful carrier. -/
def BitStream.get_bits (bs : BitStream) (n : Nat) : Option (Nat × BitStream) :=
  let byte_index := bs.bit_pos / 8
  let bit_offset := bs.bit_pos % 8
  if byte_index ≤ bs.buffer.length then
    let chunk := readChunk bs.buffer byte_index
    let mask := if n = 32 then 2 ^ 32 - 1 else (1 <<< n) - 1
    let val := (chunk >>> bit_offset) &&& mask
    some (val, { bs with bit_pos := bs.bit_pos + n })
  else
    none

/-- BitStream::no_bits_left (lib.rs lines 70-72). -/
def BitStream.no_bits_left (bs : BitStream) : Bool :=
  bs.buffer.length * 8 ≤ bs.bit_pos

/-- Bit `i` of the byte stream in the spec's addressing (section 4.1):
least-significant-bit first within each byte, bytes ascending. Bits past the
end of the buffer are zero. -/
def streamBit (buffer : List Nat) (i : Nat) : Nat :=
  (buffer.getD (i / 8) 0 >>> (i % 8)) &&& 1

/-- Spec section 4.1, stated in the spec's own words: the next `n` bits of
the buffer starting at bit position `p`, packed so that bit 0 of the result
is the first unread bit. Used only to compare `BitStream.get_bits` against
the specified contract. -/
def nextBitsSpec (buffer : List Nat) (p n : Nat) : Nat :=
  (List.range n).foldl (fun acc j => acc + (streamBit buffer (p + j)) <<< j) 0

/-- Spec section 8 round-trip property: concatenate a sequence of
(value, width) fields back into one integer, field `i` placed at the bit
offset equal to the sum of the previous widths. -/
def concatFields (l : List (Nat × Nat)) : Nat :=
  (l.foldl (fun acc vw => (acc.1 + (vw.1 <<< acc.2), acc.2 + vw.2)) ((0 : Nat), (0 : Nat))).1

/-- A byte buffer viewed as one integer, byte `i` at bit offset `8 * i`
(the spec's "reconstructs the original buffer exactly" comparison point). -/
def bytesToNat (b : List Nat) : Nat :=
  b.foldr (fun x acc => x + (acc <<< 8)) 0

/-- Perform a sequence of `get_bits` reads of the given widths, returning
the (value, width) pairs in order; `none` if any read panics. -/
def readWidths (bs : BitStream) : List Nat → Option (List (Nat × Nat))
  | [] => some []
  | n :: rest =>
    match bs.get_bits n with
    | none => none
    | some (v, bs') =>
      match readWidths bs' rest with
      | none => none
      | some l => some ((v, n) :: l)

/-- CompressionParams (lib.rs lines 127-131). -/
structure CompressionParams where
  code_len : Nat
  horz_sub_bits : Nat
  vert_sub_bits : Nat
  deriving DecidableEq, Repr

/-- Errors surfaced by the decoder (modelling the `anyhow::Result` error
channel of lib.rs). -/
inductive EerError where
  | tagReadFailed : EerError
  | unsupportedCompression (code : Nat) : EerError
  deriving DecidableEq, Repr

/-- The TIFF tag values consulted by get_compression_params, as reported by
the external container for one page: the Compression tag and the three
custom tags 65007/65008/65009. `none` models a failing `get_tag_u32`. -/
structure TiffTags where
  compression : Option Nat
  tag_pos_skip_bits : Option Nat
  tag_horz_sub_bits : Option Nat
  tag_vert_sub_bits : Option Nat
  deriving DecidableEq, Repr

/-- get_compression_params (lib.rs lines 133-161): the closed mapping from
the container's compression code to the decode parameters; code 65002 reads
the three custom tags; every other code is an error. -/
def get_compression_params (t : TiffTags) : Except EerError CompressionParams :=
  match t.compression with
  | none => Except.error EerError.tagReadFailed
  | some compression =>
    match compression with
    | 65000 => Except.ok { code_len := 8, horz_sub_bits := 2, vert_sub_bits := 2 }
    | 65001 => Except.ok { code_len := 7, horz_sub_bits := 2, vert_sub_bits := 2 }
    | 65002 =>
      match t.tag_pos_skip_bits with
      | none => Except.error EerError.tagReadFailed
      | some code_len =>
        match t.tag_horz_sub_bits with
        | none => Except.error EerError.tagReadFailed
        | some horz_sub_bits =>
          match t.tag_vert_sub_bits with
          | none => Except.error EerError.tagReadFailed
          | some vert_sub_bits =>
            Except.ok { code_len := code_len, horz_sub_bits := horz_sub_bits,
                        vert_sub_bits := vert_sub_bits }
    | c => Except.error (EerError.unsupportedCompression c)

/-- The mutable state of the decode loop of decode_eer_frame
(lib.rs lines 266-292): the running position `pos`, the strip's bit stream,
and the flat pixel indices incremented so far, in order. The image itself is
determined by `events`: the source increments
`slice[row * width + col]` where `row * width + col` equals the recorded
flat index `strip_pixel_start + pos`. -/
structure LoopState where
  pos : Nat
  bs : BitStream
  events : List Nat
  deriving DecidableEq, Repr

/-- The outcome of one iteration of the decode loop: continue with a new
state, leave the loop (`done` carries the accumulated events), or a Rust
panic inside `get_bits` (`fault`). -/
inductive StepResult where
  | next (st : LoopState) : StepResult
  | done (events : List Nat) : StepResult
  | fault : StepResult
  deriving DecidableEq, Repr

/-- One iteration of the decode loop of decode_eer_frame
(lib.rs lines 267-292), transliterated: read a skip code, advance `pos`,
break once the position reaches `strip_pixel_end`, and when the code is
below `pos_skip_max` read the two sub-pixel fields, record the event at
`strip_pixel_start + pos` and advance `pos` by one. -/
def decodeStep (params : CompressionParams) (pos_skip_max strip_pixel_start strip_pixel_end : Nat)
    (st : LoopState) : StepResult :=
  if strip_pixel_start + st.pos < strip_pixel_end then
    match st.bs.get_bits params.code_len with
    | none => StepResult.fault
    | some (skip, bs1) =>
      let pos := st.pos + skip
      if strip_pixel_start + pos ≥ strip_pixel_end then
        StepResult.done st.events
      else if skip < pos_skip_max then
        match bs1.get_bits params.vert_sub_bits with
        | none => StepResult.fault
        | some (_, bs2) =>
          match bs2.get_bits params.horz_sub_bits with
          | none => StepResult.fault
          | some (_, bs3) =>
            StepResult.next { pos := pos + 1, bs := bs3,
                              events := st.events ++ [strip_pixel_start + pos] }
      else
        StepResult.next { pos := pos, bs := bs1, events := st.events }
  else
    StepResult.done st.events

/-- The decode loop, iterated on fuel. When `code_len ≥ 1` every `next`
step strictly increases `pos` (a sentinel skip is then nonzero, and an event
advances `pos` by one), so `strip_pixel_end - strip_pixel_start + 1` fuel
always reaches the loop's own exit; fuel exhaustion (`none`) can only model
the genuine non-termination of the source loop at `code_len = 0`. -/
def decodeGo (params : CompressionParams) (pos_skip_max strip_pixel_start strip_pixel_end : Nat) :
    Nat → LoopState → Option (List Nat)
  | 0, _ => none
  | fuel + 1, st =>
    match decodeStep params pos_skip_max strip_pixel_start strip_pixel_end st with
    | StepResult.done evs => some evs
    | StepResult.fault => none
    | StepResult.next st' =>
      decodeGo params pos_skip_max strip_pixel_start strip_pixel_end fuel st'

/-- Decoding of a single strip (the body of the per-strip loop of
decode_eer_frame, lib.rs lines 259-292): a fresh BitStream over the strip's
bytes, `pos` starting at 0, no events. Returns the incremented flat pixel
indices in order; `none` models a panic. -/
def decodeStrip (strip : List Nat) (params : CompressionParams)
    (pos_skip_max strip_pixel_start strip_pixel_end : Nat) : Option (List Nat) :=
  decodeGo params pos_skip_max strip_pixel_start strip_pixel_end
    (strip_pixel_end - strip_pixel_start + 1)
    { pos := 0, bs := BitStream.new strip, events := [] }

/-- The per-strip loop of decode_eer_frame (lib.rs lines 254-292) over the
enumerated strips: each strip's row range is `strip_idx * rows_per_strip`
up to that plus `rows_per_strip`, clipped to `height`; events of all strips
are concatenated in order. -/
def decodeFrameGo (params : CompressionParams) (pos_skip_max height width rows_per_strip : Nat) :
    List (Nat × List Nat) → Option (List Nat)
  | [] => some []
  | (strip_idx, strip) :: rest =>
    let start_row := strip_idx * rows_per_strip
    let end_row := min (start_row + rows_per_strip) height
    let strip_pixel_start := start_row * width
    let strip_pixel_end := end_row * width
    match decodeStrip strip params pos_skip_max strip_pixel_start strip_pixel_end with
    | none => none
    | some evs =>
      match decodeFrameGo params pos_skip_max height width rows_per_strip rest with
      | none => none
      | some evs' => some (evs ++ evs')

/-- decode_eer_frame (lib.rs lines 237-296) with the external container and
file I/O already resolved: `strips` is the list of per-strip byte buffers
(the seek/read_exact of each StripInfo). `pos_skip_max = (1 <<< code_len) - 1`
as at line 247. The result is the ordered list of flat pixel indices whose
count the source increments by one (u16 wrapping add); `none` models a
panic inside the loop. -/
def decode_eer_frame (strips : List (List Nat)) (params : CompressionParams)
    (height width rows_per_strip : Nat) : Option (List Nat) :=
  let pos_skip_max := (1 <<< params.code_len) - 1
  decodeFrameGo params pos_skip_max height width rows_per_strip strips.enum

/-- The frame-skipping inner loop of decode_frames (lib.rs lines 324-330),
run `k` times: if the container has more pages, advance to the next page
and re-resolve the compression parameters from it (propagating a resolution
error, modelled as `none`); otherwise do nothing. The container is `P`
pages whose tags are `pages 0 .. pages (P-1)`; `page` is the current page,
and more_images holds exactly when `page + 1 < P`. -/
def skipAdvance (pages : Nat → TiffTags) (P : Nat) :
    Nat → Nat → CompressionParams → Option (Nat × CompressionParams)
  | 0, page, params => some (page, params)
  | k + 1, page, params =>
    if page + 1 < P then
      match get_compression_params (pages (page + 1)) with
      | Except.error _ => none
      | Except.ok newParams => skipAdvance pages P k (page + 1) newParams
    else
      skipAdvance pages P k page params

/-- The outer loop of decode_frames (lib.rs lines 316-331):
`for frame_idx in (0..num_frames).step_by(step)`. Each iteration records
the invocation of the per-frame event decoder as the triple
(frame index, container page at that moment, parameters used) — the image
sum itself is element-wise addition of the decoded frames and is not needed
by any property below — then advances the container past
`min step (num_frames - frame_idx - 1)` pages, re-resolving the parameters
after each advance. Fuel `num_frames + 1` reaches the loop's exit whenever
`step ≥ 1`. -/
def decodeFramesGo (pages : Nat → TiffTags) (P num_frames step : Nat) :
    Nat → Nat → Nat → CompressionParams → Option (List (Nat × Nat × CompressionParams))
  | 0, _, _, _ => none
  | fuel + 1, frame_idx, page, params =>
    if frame_idx < num_frames then
      match skipAdvance pages P (min step (num_frames - frame_idx - 1)) page params with
      | none => none
      | some (page', params') =>
        match decodeFramesGo pages P num_frames step fuel (frame_idx + step) page' params' with
        | none => none
        | some rest => some ((frame_idx, page, params) :: rest)
    else
      some []

/-- decode_frames (lib.rs lines 298-334) at the instrumentation level of
spec section 8 ("counting decode invocations"): the container starts on
page 0 and the caller supplies the initial parameters; the result lists,
in order, each decode invocation as (frame index, page, parameters used).
`none` models a propagated error (or the step_by(0) degenerate case). -/
def decode_frames (pages : Nat → TiffTags) (P num_frames step : Nat)
    (params0 : CompressionParams) : Option (List (Nat × Nat × CompressionParams)) :=
  decodeFramesGo pages P num_frames step (num_frames + 1) 0 0 params0

/-!
Helper lemmas shared by several theorems below.
-/

/-- A `get_bits` call that returns advances `bit_pos` by exactly `n` and
keeps the buffer. -/
theorem get_bits_advances {bs bs' : BitStream} {n v : Nat}
    (h : bs.get_bits n = some (v, bs')) :
    bs' = { bs with bit_pos := bs.bit_pos + n } := by
  unfold BitStream.get_bits at h
  by_cases hle : bs.bit_pos / 8 ≤ bs.buffer.length
  · simp only [hle, if_true] at h
    exact (Prod.mk.injEq _ _ _ _).mp (Option.some.injEq _ _ |>.mp h) |>.2.symm ▸ rfl
  · simp [hle] at h

/-- A `get_bits` call returns exactly when the starting byte index is at
most the buffer length. -/
theorem get_bits_isSome_iff (bs : BitStream) (n : Nat) :
    (bs.get_bits n).isSome ↔ bs.bit_pos / 8 ≤ bs.buffer.length := by
  unfold BitStream.get_bits
  by_cases hle : bs.bit_pos / 8 ≤ bs.buffer.length <;> simp [hle]

/-- C1: the spec's get_bits contract fails on the code for reads that span
5 bytes. On the buffer [0x80, 0, 0, 0, 0xFF], after consuming 7 bits, a
32-bit read starts at bit offset 7 and per the contract must return bits
7..38 of the stream, namely 0xFE000001; the code assembles its chunk from
only 4 bytes, so the fifth byte never contributes and the call returns 1. -/
theorem get_bits_four_byte_chunk_drops_fifth_byte :
    (BitStream.new [128, 0, 0, 0, 255]).get_bits 7
      = some (0, { buffer := [128, 0, 0, 0, 255], bit_pos := 7 }) ∧
    ((BitStream.mk [128, 0, 0, 0, 255] 7).get_bits 32).map Prod.fst = some 1 ∧
    nextBitsSpec [128, 0, 0, 0, 255] 7 32 = 4261412865 ∧
    (1 : Nat) ≠ 4261412865 :=
  ⟨by decide, by decide, by decide, by decide⟩

/-- C2: the bit-reader round trip fails for a partition containing a wide
read. On the 40-bit buffer [0x80, 0, 0, 0, 0xFF] with the partition
[7, 32, 1] (each width at most 32, summing to 40), the reads return
(0, 1, 1); concatenating those fields reproduces only bits 7 and 39, giving
0x8000000080, while the buffer itself is 0xFF00000080 — the bits the 32-bit
read dropped from the fifth byte are lost. -/
theorem bit_reader_round_trip_fails_on_wide_read :
    readWidths (BitStream.new [128, 0, 0, 0, 255]) [7, 32, 1]
      = some [(0, 7), (1, 32), (1, 1)] ∧
    7 + 32 + 1 = 8 * 5 ∧
    concatFields [(0, 7), (1, 32), (1, 1)] = 549755814016 ∧
    bytesToNat [128, 0, 0, 0, 255] = 1095216660608 ∧
    (549755814016 : Nat) ≠ 1095216660608 :=
  ⟨by decide, by decide, by decide, by decide, by decide⟩

/-- C5: a zero-size strip is not handled as "no events". With the standard
parameters (code_len 8, sub-bits 2/2) and a frame of height 1, width 2,
rows_per_strip 1, the single strip's pixel range is [0, 2), so the loop
condition holds; the empty buffer yields the zero skip code, which counts
as an event, and the first sub-pixel read then panics (byte index 1 on an
empty buffer). The decode therefore fails instead of returning an
unchanged image. -/
theorem zero_size_strip_panics :
    decode_eer_frame [[]] { code_len := 8, horz_sub_bits := 2, vert_sub_bits := 2 } 1 2 1
      = none :=
  by decide
/-- Reduction of one decode-loop iteration once the loop condition holds and
the skip read returns. -/
theorem decodeStep_eq (params : CompressionParams) (pos_skip_max s e : Nat)
    (st : LoopState) (skip : Nat) (bs1 : BitStream)
    (hcond : s + st.pos < e)
    (hread : st.bs.get_bits params.code_len = some (skip, bs1)) :
    decodeStep params pos_skip_max s e st =
      if s + (st.pos + skip) ≥ e then StepResult.done st.events
      else if skip < pos_skip_max then
        match bs1.get_bits params.vert_sub_bits with
        | none => StepResult.fault
        | some (_, bs2) =>
          match bs2.get_bits params.horz_sub_bits with
          | none => StepResult.fault
          | some (_, bs3) =>
            StepResult.next { pos := st.pos + skip + 1, bs := bs3,
                              events := st.events ++ [s + (st.pos + skip)] }
      else StepResult.next { pos := st.pos + skip, bs := bs1, events := st.events } := by
  unfold decodeStep
  rw [if_pos hcond, hread]

/-- C3: an iteration of the decode loop whose skip code equals the sentinel
2 ^ code_len - 1 advances the position by that amount and nothing else: the
stream is left exactly after the skip read (no sub-pixel bits consumed) and
no event is recorded; conversely, an iteration that records an event read a
skip code strictly below the sentinel. -/
theorem sentinel_skip_only (params : CompressionParams)
    (strip_pixel_start strip_pixel_end : Nat) (st : LoopState) (skip : Nat) (bs1 : BitStream)
    (hcond : strip_pixel_start + st.pos < strip_pixel_end)
    (hread : st.bs.get_bits params.code_len = some (skip, bs1)) :
    (skip = (1 <<< params.code_len) - 1 →
      bs1.bit_pos = st.bs.bit_pos + params.code_len ∧
      (decodeStep params ((1 <<< params.code_len) - 1) strip_pixel_start strip_pixel_end st
         = StepResult.done st.events ∨
       decodeStep params ((1 <<< params.code_len) - 1) strip_pixel_start strip_pixel_end st
         = StepResult.next { pos := st.pos + skip, bs := bs1, events := st.events })) ∧
    (∀ st', decodeStep params ((1 <<< params.code_len) - 1) strip_pixel_start strip_pixel_end st
         = StepResult.next st' → st'.events ≠ st.events →
       skip < (1 <<< params.code_len) - 1) := by
  rw [decodeStep_eq params ((1 <<< params.code_len) - 1) strip_pixel_start strip_pixel_end st
    skip bs1 hcond hread]
  constructor
  · intro hsk
    refine ⟨by rw [get_bits_advances hread], ?_⟩
    by_cases hbr : strip_pixel_start + (st.pos + skip) ≥ strip_pixel_end
    · left; rw [if_pos hbr]
    · right
      rw [if_neg hbr, if_neg (by simp [hsk])]
  · intro st' hst' hne
    by_contra hnl
    by_cases hbr : strip_pixel_start + (st.pos + skip) ≥ strip_pixel_end
    · rw [if_pos hbr] at hst'
      exact StepResult.noConfusion hst'
    · rw [if_neg hbr, if_neg hnl] at hst'
      injection hst' with h
      exact hne (by rw [← h])

/-- Witness for sentinel_skip_only at the concrete sentinel code 255
(code_len 8): buffer [0xFF, 0], loop over pixel range [0, 500). -/
theorem sentinel_skip_only_witness :
    BitStream.bit_pos { buffer := [255, 0], bit_pos := 8 } = BitStream.bit_pos { buffer := [255, 0], bit_pos := 0 } + 8 ∧
    (decodeStep { code_len := 8, horz_sub_bits := 2, vert_sub_bits := 2 } ((1 <<< 8) - 1) 0 500
       { pos := 0, bs := { buffer := [255, 0], bit_pos := 0 }, events := [] }
       = StepResult.done [] ∨
     decodeStep { code_len := 8, horz_sub_bits := 2, vert_sub_bits := 2 } ((1 <<< 8) - 1) 0 500
       { pos := 0, bs := { buffer := [255, 0], bit_pos := 0 }, events := [] }
       = StepResult.next { pos := 0 + 255, bs := { buffer := [255, 0], bit_pos := 8 }, events := [] }) :=
  (sentinel_skip_only { code_len := 8, horz_sub_bits := 2, vert_sub_bits := 2 } 0 500
    { pos := 0, bs := { buffer := [255, 0], bit_pos := 0 }, events := [] } 255
    { buffer := [255, 0], bit_pos := 8 } (by decide) (by decide)).1 (by decide)

/-- Unfolding equation of the fuelled decode loop. -/
theorem decodeGo_succ (params : CompressionParams) (pos_skip_max s e fuel : Nat)
    (st : LoopState) :
    decodeGo params pos_skip_max s e (fuel + 1) st =
      match decodeStep params pos_skip_max s e st with
      | StepResult.done evs => some evs
      | StepResult.fault => none
      | StepResult.next st' => decodeGo params pos_skip_max s e fuel st' := rfl

/-- C4 counterexample: a strip of bytes [0x05, 0x00] encodes exactly one
code word under code_len 8 and 2+2 sub-bits (skip 5 below the sentinel 255,
then four sub-pixel bits; the remaining four bits are byte padding). Decoded
against the 7-pixel range [0, 7), the loop does not stop after that word:
the padding reads back as a zero skip code, which counts as another event,
so pixels 5 AND 6 are incremented — not exactly the one pixel
strip_pixel_start + skip = 5 the claim promises. -/
theorem single_event_strip_counterexample :
    decodeStrip [5, 0] { code_len := 8, horz_sub_bits := 2, vert_sub_bits := 2 }
      ((1 <<< 8) - 1) 0 7 = some [5, 6] ∧
    some [5, 6] ≠ some [0 + 5] :=
  ⟨by decide, by decide⟩

/-- C4 amended: a one-code-word strip (skip below the sentinel, followed by
the required vert and horz sub-bits) increments exactly one pixel, at flat
index strip_pixel_start + skip, by exactly one, PROVIDED the event lands on
the final pixel of the strip's range (strip_pixel_end = strip_pixel_start +
skip + 1), so that the loop condition fails right after the event and the
byte padding after the code word is never decoded. -/
theorem single_event_exhausting_strip (buffer : List Nat) (params : CompressionParams)
    (strip_pixel_start strip_pixel_end skip v h : Nat) (bs1 bs2 bs3 : BitStream)
    (h1 : (BitStream.new buffer).get_bits params.code_len = some (skip, bs1))
    (h2 : skip < (1 <<< params.code_len) - 1)
    (h3 : bs1.get_bits params.vert_sub_bits = some (v, bs2))
    (h4 : bs2.get_bits params.horz_sub_bits = some (h, bs3))
    (h5 : strip_pixel_end = strip_pixel_start + skip + 1) :
    decodeStrip buffer params ((1 <<< params.code_len) - 1) strip_pixel_start strip_pixel_end
      = some [strip_pixel_start + skip] := by
  subst h5
  have hstep1 : decodeStep params ((1 <<< params.code_len) - 1) strip_pixel_start
      (strip_pixel_start + skip + 1)
      { pos := 0, bs := BitStream.new buffer, events := [] }
      = StepResult.next { pos := skip + 1, bs := bs3, events := [strip_pixel_start + skip] } := by
    unfold decodeStep
    dsimp only
    rw [if_pos (by omega), h1]
    dsimp only
    rw [if_neg (by omega), if_pos h2, h3]
    dsimp only
    rw [h4]
    dsimp only
    simp
  have hstep2 : decodeStep params ((1 <<< params.code_len) - 1) strip_pixel_start
      (strip_pixel_start + skip + 1)
      { pos := skip + 1, bs := bs3, events := [strip_pixel_start + skip] }
      = StepResult.done [strip_pixel_start + skip] := by
    unfold decodeStep
    dsimp only
    rw [if_neg (by omega)]
  unfold decodeStrip
  have hfuel : strip_pixel_start + skip + 1 - strip_pixel_start + 1 = skip + 1 + 1 := by omega
  rw [hfuel, decodeGo_succ, hstep1]
  dsimp only
  rw [decodeGo_succ, hstep2]

/-- Witness for single_event_exhausting_strip: the one-code-word strip
[0x05, 0x00] with code_len 8, sub-bits 2/2, decoded against the 6-pixel
range [0, 6) — the event at flat index 5 is the last pixel of the range. -/
theorem single_event_exhausting_strip_witness :
    decodeStrip [5, 0] { code_len := 8, horz_sub_bits := 2, vert_sub_bits := 2 }
      ((1 <<< 8) - 1) 0 6 = some [0 + 5] :=
  single_event_exhausting_strip [5, 0]
    { code_len := 8, horz_sub_bits := 2, vert_sub_bits := 2 } 0 6 5 0 0
    { buffer := [5, 0], bit_pos := 8 } { buffer := [5, 0], bit_pos := 10 }
    { buffer := [5, 0], bit_pos := 12 }
    (by decide) (by decide) (by decide) (by decide) (by decide)

/-- C6: get_compression_params is the closed table of the spec — code 65000
maps to parameters (8, 2, 2), code 65001 to (7, 2, 2), code 65002 to the
three values read from the custom tags 65007/65008/65009, and every other
compression code yields a reported unsupported-compression error, never a
defaulted parameter set. -/
theorem get_compression_params_closed_table (t : TiffTags) :
    (t.compression = some 65000 →
       get_compression_params t
         = Except.ok { code_len := 8, horz_sub_bits := 2, vert_sub_bits := 2 }) ∧
    (t.compression = some 65001 →
       get_compression_params t
         = Except.ok { code_len := 7, horz_sub_bits := 2, vert_sub_bits := 2 }) ∧
    (∀ c hb vb, t.compression = some 65002 →
       t.tag_pos_skip_bits = some c → t.tag_horz_sub_bits = some hb →
       t.tag_vert_sub_bits = some vb →
       get_compression_params t
         = Except.ok { code_len := c, horz_sub_bits := hb, vert_sub_bits := vb }) ∧
    (∀ c, t.compression = some c → c ≠ 65000 → c ≠ 65001 → c ≠ 65002 →
       get_compression_params t
         = Except.error (EerError.unsupportedCompression c)) := by
  refine ⟨?_, ?_, ?_, ?_⟩
  · intro hc
    unfold get_compression_params
    rw [hc]
  · intro hc
    unfold get_compression_params
    rw [hc]
  · intro c hb vb hc hskip hhorz hvert
    unfold get_compression_params
    rw [hc]
    dsimp only
    rw [hskip, hhorz, hvert]
  · intro c hc h0 h1 h2
    unfold get_compression_params
    rw [hc]
    dsimp only
    split
    · exact absurd rfl h0
    · exact absurd rfl h1
    · exact absurd rfl h2
    · rfl

/-- Witness for get_compression_params_closed_table: compression code 65003
is outside the table and is reported as unsupported. -/
theorem get_compression_params_closed_table_witness :
    get_compression_params
        { compression := some 65003, tag_pos_skip_bits := none,
          tag_horz_sub_bits := none, tag_vert_sub_bits := none }
      = Except.error (EerError.unsupportedCompression 65003) :=
  (get_compression_params_closed_table
    { compression := some 65003, tag_pos_skip_bits := none,
      tag_horz_sub_bits := none, tag_vert_sub_bits := none }).2.2.2
    65003 rfl (by decide) (by decide) (by decide)

/-- Unfolding equation of the fuelled decode_frames loop. -/
theorem decodeFramesGo_succ (pages : Nat → TiffTags) (P num_frames step fuel frame_idx page : Nat)
    (params : CompressionParams) :
    decodeFramesGo pages P num_frames step (fuel + 1) frame_idx page params =
      if frame_idx < num_frames then
        match skipAdvance pages P (min step (num_frames - frame_idx - 1)) page params with
        | none => none
        | some (page', params') =>
          match decodeFramesGo pages P num_frames step fuel (frame_idx + step) page' params' with
          | none => none
          | some rest => some ((frame_idx, page, params) :: rest)
      else
        some [] := rfl

/-- The frame indices recorded by the decode_frames loop, starting from any
frame index: they are frame_idx, frame_idx + step, ... while below
num_frames, which is ceil((num_frames - frame_idx) / step) many frames. -/
theorem decodeFramesGo_indices (pages : Nat → TiffTags) (P num_frames step : Nat)
    (hstep : 1 ≤ step) :
    ∀ fuel frame_idx page params l,
      decodeFramesGo pages P num_frames step fuel frame_idx page params = some l →
      l.map (fun t => t.1)
        = (List.range ((num_frames - frame_idx + step - 1) / step)).map
            (fun k => frame_idx + k * step) := by
  intro fuel
  induction fuel with
  | zero =>
    intro i page params l h
    exact absurd h (by simp [decodeFramesGo])
  | succ fuel ih =>
    intro i page params l h
    rw [decodeFramesGo_succ] at h
    by_cases hin : i < num_frames
    · rw [if_pos hin] at h
      cases hsk : skipAdvance pages P (min step (num_frames - i - 1)) page params with
      | none => rw [hsk] at h; exact absurd h (by simp)
      | some pq =>
        obtain ⟨page', params'⟩ := pq
        rw [hsk] at h
        dsimp only at h
        cases hrec : decodeFramesGo pages P num_frames step fuel (i + step) page' params' with
        | none => rw [hrec] at h; exact absurd h (by simp)
        | some rest =>
          rw [hrec] at h
          dsimp only at h
          have hl : l = (i, page, params) :: rest := by
            have := h
            simp at this
            exact this.symm
          subst hl
          have hrest := ih (i + step) page' params' rest hrec
          have hm1 : 1 ≤ num_frames - i := by omega
          have hc : (num_frames - i + step - 1) / step = (num_frames - i - 1) / step + 1 := by
            have e : num_frames - i + step - 1 = (num_frames - i - 1) + step := by omega
            rw [e, Nat.add_div_right _ hstep]
          have hc2 : (num_frames - (i + step) + step - 1) / step
              = (num_frames - i - 1) / step := by
            rcases le_or_lt (num_frames - i) step with hle | hlt
            · have e1 : num_frames - (i + step) = 0 := by omega
              rw [e1, Nat.div_eq_of_lt (by omega), Nat.div_eq_of_lt (by omega)]
            · have e1 : num_frames - (i + step) + step - 1 = num_frames - i - 1 := by omega
              rw [e1]
          rw [hc2] at hrest
          rw [hc, List.range_succ_eq_map, List.map_cons, List.map_cons, List.map_map, hrest]
          refine congrArg₂ List.cons (by omega) ?_
          refine List.map_congr_left ?_
          intro a _
          simp only [Function.comp_apply, Nat.succ_eq_add_one]
          ring
    · rw [if_neg hin] at h
      have hl : l = [] := by
        have := h
        simp at this
        exact this
      subst hl
      have hz : num_frames - i = 0 := Nat.sub_eq_zero_of_le (le_of_not_lt hin)
      rw [hz]
      have hd : (0 + step - 1) / step = 0 := Nat.div_eq_of_lt (by omega)
      rw [hd]
      simp

/-- C7: for any total frame count N and stride S ≥ 1, a successful run of
decode_frames invokes the per-frame event decoder exactly ceil(N / S) =
(N + S - 1) / S times, on the frame indices 0, S, 2S, ... . -/
theorem decode_frames_ceil_count (pages : Nat → TiffTags) (P num_frames step : Nat)
    (params0 : CompressionParams) (l : List (Nat × Nat × CompressionParams))
    (hstep : 1 ≤ step)
    (hrun : decode_frames pages P num_frames step params0 = some l) :
    l.map (fun t => t.1)
      = (List.range ((num_frames + step - 1) / step)).map (fun k => k * step) ∧
    l.length = (num_frames + step - 1) / step := by
  have h := decodeFramesGo_indices pages P num_frames step hstep (num_frames + 1)
    0 0 params0 l hrun
  have h0 : num_frames - 0 + step - 1 = num_frames + step - 1 := by omega
  rw [h0] at h
  have h1 : (List.range ((num_frames + step - 1) / step)).map (fun k => 0 + k * step)
      = (List.range ((num_frames + step - 1) / step)).map (fun k => k * step) :=
    List.map_congr_left (fun a _ => by omega)
  rw [h1] at h
  refine ⟨h, ?_⟩
  have hlen := congrArg List.length h
  simpa using hlen

/-- A constant container: every page carries compression code 65000. Used
only to instantiate witnesses. -/
def constPages : Nat → TiffTags :=
  fun _ => { compression := some 65000, tag_pos_skip_bits := none,
             tag_horz_sub_bits := none, tag_vert_sub_bits := none }

/-- Witness for decode_frames_ceil_count: 3 frames with stride 2 decode
ceil(3/2) = 2 frames, at indices 0 and 2. -/
theorem decode_frames_ceil_count_witness :
    [((0 : Nat), (0 : Nat), CompressionParams.mk 8 2 2),
     (2, 2, CompressionParams.mk 8 2 2)].map (fun t => t.1)
      = (List.range ((3 + 2 - 1) / 2)).map (fun k => k * 2) ∧
    [((0 : Nat), (0 : Nat), CompressionParams.mk 8 2 2),
     (2, 2, CompressionParams.mk 8 2 2)].length = (3 + 2 - 1) / 2 :=
  decode_frames_ceil_count constPages 3 3 2 (CompressionParams.mk 8 2 2)
    [(0, 0, CompressionParams.mk 8 2 2), (2, 2, CompressionParams.mk 8 2 2)]
    (by decide) (by decide)

/-- Effect of the frame-skipping loop when every page's parameters resolve
and the container has pages left for each advance: after `k` advances the
container is on page `page + k`, and for `k ≥ 1` the current parameters are
exactly the resolution of that page's tags. -/
theorem skipAdvance_resolves (pages : Nat → TiffTags) (P : Nat)
    (hres : ∀ j, ∃ p, get_compression_params (pages j) = Except.ok p) :
    ∀ k page params, page + k < P →
      ∃ q, skipAdvance pages P k page params = some (page + k, q) ∧
        (k = 0 → q = params) ∧
        (1 ≤ k → get_compression_params (pages (page + k)) = Except.ok q) := by
  intro k
  induction k with
  | zero =>
    intro page params _
    exact ⟨params, rfl, fun _ => rfl, fun h => absurd h (by omega)⟩
  | succ k ih =>
    intro page params hlt
    have hmore : page + 1 < P := by omega
    obtain ⟨p, hp⟩ := hres (page + 1)
    have hunf : skipAdvance pages P (k + 1) page params
        = skipAdvance pages P k (page + 1) p := by
      show (if page + 1 < P then
          match get_compression_params (pages (page + 1)) with
          | Except.error _ => none
          | Except.ok newParams => skipAdvance pages P k (page + 1) newParams
        else skipAdvance pages P k page params) = _
      rw [if_pos hmore, hp]
    obtain ⟨q, hq, hq0, hq1⟩ := ih (page + 1) p (by omega)
    have harith : page + 1 + k = page + (k + 1) := by omega
    rw [harith] at hq
    refine ⟨q, by rw [hunf, hq], fun h => absurd h (by omega), ?_⟩
    intro _
    rcases Nat.eq_zero_or_pos k with hk | hk
    · subst hk
      have hqp := hq0 rfl
      subst hqp
      simpa using hp
    · have := hq1 hk
      rw [harith] at this
      exact this

/-- Invariant of the decode_frames loop when the container page tracks the
frame index: every recorded invocation is decoded at the container page
equal to its frame index, with parameters that are either the ones passed
in (for the starting frame) or the resolution of that very page. -/
theorem decodeFramesGo_pages_track (pages : Nat → TiffTags) (P num_frames step : Nat)
    (hstep : 1 ≤ step) (hP : num_frames ≤ P)
    (hres : ∀ j, ∃ p, get_compression_params (pages j) = Except.ok p) :
    ∀ fuel frame_idx params, num_frames - frame_idx < fuel →
      ∃ l, decodeFramesGo pages P num_frames step fuel frame_idx frame_idx params = some l ∧
        ∀ t ∈ l, t.2.1 = t.1 ∧ frame_idx ≤ t.1 ∧
          (frame_idx < t.1 → get_compression_params (pages t.1) = Except.ok t.2.2) ∧
          (t.1 = frame_idx → t.2.2 = params) := by
  intro fuel
  induction fuel with
  | zero =>
    intro i params h
    exact absurd h (by omega)
  | succ fuel ih =>
    intro i params hf
    by_cases hin : i < num_frames
    · have hkle : min step (num_frames - i - 1) ≤ num_frames - i - 1 := min_le_right _ _
      have hkP : i + min step (num_frames - i - 1) < P := by omega
      obtain ⟨q, hq, hq0, hq1⟩ :=
        skipAdvance_resolves pages P hres (min step (num_frames - i - 1)) i params hkP
      rcases lt_or_ge (i + step) num_frames with hnext | hnext
      · have hkstep : min step (num_frames - i - 1) = step :=
          min_eq_left (by omega)
        obtain ⟨rest, hrest, hprop⟩ := ih (i + step) q (by omega)
        refine ⟨(i, i, params) :: rest, ?_, ?_⟩
        · rw [decodeFramesGo_succ, if_pos hin, hq]
          dsimp only
          rw [show i + min step (num_frames - i - 1) = i + step from by omega, hrest]
        · intro t ht
          rcases List.mem_cons.mp ht with h1 | h2
          · subst h1
            exact ⟨rfl, le_refl i, fun hlt => absurd hlt (lt_irrefl i), fun _ => rfl⟩
          · obtain ⟨e1, e2, e3, e4⟩ := hprop t h2
            refine ⟨e1, by omega, ?_, ?_⟩
            · intro _
              rcases eq_or_lt_of_le e2 with heq | hlt2
              · rw [e4 heq.symm, ← heq]
                have hr := hq1 (by omega)
                rw [show i + min step (num_frames - i - 1) = i + step from by omega] at hr
                exact hr
              · exact e3 hlt2
            · intro heq
              exact absurd (heq ▸ e2) (by omega)
      · have hf1 : 1 ≤ fuel := by omega
        obtain ⟨fuel', rfl⟩ : ∃ f', fuel = f' + 1 := ⟨fuel - 1, by omega⟩
        refine ⟨[(i, i, params)], ?_, ?_⟩
        · rw [decodeFramesGo_succ, if_pos hin, hq]
          dsimp only
          rw [decodeFramesGo_succ, if_neg (by omega)]
        · intro t ht
          rw [List.mem_singleton] at ht
          subst ht
          exact ⟨rfl, le_refl i, fun hlt => absurd hlt (lt_irrefl i), fun _ => rfl⟩
    · refine ⟨[], ?_, by intro t ht; exact absurd ht (List.not_mem_nil t)⟩
      rw [decodeFramesGo_succ, if_neg hin]

/-- C8: whenever the container has a page per frame and every page's
parameters resolve, a run of decode_frames decodes every frame at the
container page equal to its frame index, and every decoded frame after the
first uses the parameters resolved from its own page (the first uses the
parameters passed by the caller). -/
theorem decode_frames_params_from_own_page (pages : Nat → TiffTags)
    (P num_frames step : Nat) (params0 : CompressionParams)
    (hstep : 1 ≤ step) (hP : num_frames ≤ P)
    (hres : ∀ j, ∃ p, get_compression_params (pages j) = Except.ok p) :
    ∃ l, decode_frames pages P num_frames step params0 = some l ∧
      ∀ t ∈ l, t.2.1 = t.1 ∧
        (0 < t.1 → get_compression_params (pages t.1) = Except.ok t.2.2) ∧
        (t.1 = 0 → t.2.2 = params0) := by
  obtain ⟨l, hl, hprop⟩ := decodeFramesGo_pages_track pages P num_frames step hstep hP hres
    (num_frames + 1) 0 params0 (by omega)
  exact ⟨l, hl, fun t ht =>
    ⟨(hprop t ht).1, (hprop t ht).2.2.1, (hprop t ht).2.2.2⟩⟩

/-- Witness for decode_frames_params_from_own_page: a 3-page container of
constant compression code 65000, 3 frames, stride 2. -/
theorem decode_frames_params_from_own_page_witness :
    ∃ l, decode_frames constPages 3 3 2 (CompressionParams.mk 8 2 2) = some l ∧
      ∀ t ∈ l, t.2.1 = t.1 ∧
        (0 < t.1 → get_compression_params (constPages t.1) = Except.ok t.2.2) ∧
        (t.1 = 0 → t.2.2 = CompressionParams.mk 8 2 2) :=
  decode_frames_params_from_own_page constPages 3 3 2 (CompressionParams.mk 8 2 2)
    (by decide) (by decide)
    (fun _ => ⟨CompressionParams.mk 8 2 2, rfl⟩)

/-- A loop iteration that exits returns exactly the events accumulated so
far. -/
theorem decodeStep_done_events (params : CompressionParams)
    (pos_skip_max s e : Nat) (st : LoopState) (evs : List Nat)
    (h : decodeStep params pos_skip_max s e st = StepResult.done evs) :
    evs = st.events := by
  unfold decodeStep at h
  by_cases hcond : s + st.pos < e
  · rw [if_pos hcond] at h
    cases hg : st.bs.get_bits params.code_len with
    | none =>
      rw [hg] at h
      exact absurd h (by simp)
    | some pr =>
      obtain ⟨skip, bs1⟩ := pr
      rw [hg] at h
      dsimp only at h
      by_cases hbr : s + (st.pos + skip) ≥ e
      · rw [if_pos hbr] at h
        injection h with h
        exact h.symm
      · rw [if_neg hbr] at h
        by_cases hev : skip < pos_skip_max
        · rw [if_pos hev] at h
          cases hv : bs1.get_bits params.vert_sub_bits with
          | none => rw [hv] at h; exact absurd h (by simp)
          | some pv =>
            obtain ⟨v, bs2⟩ := pv
            rw [hv] at h
            dsimp only at h
            cases hh : bs2.get_bits params.horz_sub_bits with
            | none => rw [hh] at h; exact absurd h (by simp)
            | some ph =>
              obtain ⟨w, bs3⟩ := ph
              rw [hh] at h
              exact absurd h (by simp)
        · rw [if_neg hev] at h
          exact absurd h (by simp)
  · rw [if_neg hcond] at h
    injection h with h
    exact h.symm

/-- A loop iteration that continues either leaves the events unchanged or
appends one event whose flat index is strictly below strip_pixel_end (the
bound checked before the increment at lib.rs lines 271-273). -/
theorem decodeStep_next_events (params : CompressionParams)
    (pos_skip_max s e : Nat) (st st' : LoopState)
    (h : decodeStep params pos_skip_max s e st = StepResult.next st') :
    st'.events = st.events ∨
      ∃ p, st'.events = st.events ++ [s + p] ∧ s + p < e := by
  unfold decodeStep at h
  by_cases hcond : s + st.pos < e
  · rw [if_pos hcond] at h
    cases hg : st.bs.get_bits params.code_len with
    | none =>
      rw [hg] at h
      exact absurd h (by simp)
    | some pr =>
      obtain ⟨skip, bs1⟩ := pr
      rw [hg] at h
      dsimp only at h
      by_cases hbr : s + (st.pos + skip) ≥ e
      · rw [if_pos hbr] at h
        exact absurd h (by simp)
      · rw [if_neg hbr] at h
        by_cases hev : skip < pos_skip_max
        · rw [if_pos hev] at h
          cases hv : bs1.get_bits params.vert_sub_bits with
          | none => rw [hv] at h; exact absurd h (by simp)
          | some pv =>
            obtain ⟨v, bs2⟩ := pv
            rw [hv] at h
            dsimp only at h
            cases hh : bs2.get_bits params.horz_sub_bits with
            | none => rw [hh] at h; exact absurd h (by simp)
            | some ph =>
              obtain ⟨w, bs3⟩ := ph
              rw [hh] at h
              dsimp only at h
              injection h with h
              right
              exact ⟨st.pos + skip, by rw [← h], by omega⟩
        · rw [if_neg hev] at h
          injection h with h
          left
          rw [← h]
  · rw [if_neg hcond] at h
    exact absurd h (by simp)

/-- Every event produced by the fuelled decode loop, beyond those already
accumulated, lies strictly below strip_pixel_end. -/
theorem decodeGo_events_bound (params : CompressionParams) (pos_skip_max s e : Nat) :
    ∀ fuel st evs, decodeGo params pos_skip_max s e fuel st = some evs →
      (∀ x ∈ st.events, x < e) → ∀ x ∈ evs, x < e := by
  intro fuel
  induction fuel with
  | zero =>
    intro st evs h
    exact absurd h (by simp [decodeGo])
  | succ fuel ih =>
    intro st evs h hinv
    rw [decodeGo_succ] at h
    cases hs : decodeStep params pos_skip_max s e st with
    | done evs' =>
      rw [hs] at h
      injection h with h
      subst h
      rw [decodeStep_done_events params pos_skip_max s e st evs' hs]
      exact hinv
    | fault =>
      rw [hs] at h
      exact absurd h (by simp)
    | next st' =>
      rw [hs] at h
      refine ih st' evs h ?_
      rcases decodeStep_next_events params pos_skip_max s e st st' hs with heq | ⟨p, heq, hlt⟩
      · rw [heq]; exact hinv
      · rw [heq]
        intro x hx
        rcases List.mem_append.mp hx with hx | hx
        · exact hinv x hx
        · rw [List.mem_singleton.mp hx]
          exact hlt

/-- All events of a decoded strip lie strictly below its strip_pixel_end. -/
theorem decodeStrip_events_bound (strip : List Nat) (params : CompressionParams)
    (pos_skip_max s e : Nat) (evs : List Nat)
    (h : decodeStrip strip params pos_skip_max s e = some evs) :
    ∀ x ∈ evs, x < e :=
  decodeGo_events_bound params pos_skip_max s e (e - s + 1)
    { pos := 0, bs := BitStream.new strip, events := [] } evs h
    (by intro x hx; exact absurd hx (List.not_mem_nil x))

/-- C9: every pixel increment performed by decode_eer_frame stays inside
the allocated height-by-width image: each strip's positions are checked
against its strip_pixel_end, which is derived from a row range clipped to
the frame height, so every recorded flat index is below height * width no
matter what skip codes the stream contains. -/
theorem decode_eer_frame_events_in_image (strips : List (List Nat))
    (params : CompressionParams) (height width rows_per_strip : Nat) (evs : List Nat)
    (h : decode_eer_frame strips params height width rows_per_strip = some evs) :
    ∀ x ∈ evs, x < height * width := by
  unfold decode_eer_frame at h
  revert evs h
  generalize strips.enum = l
  induction l with
  | nil =>
    intro evs h
    simp [decodeFrameGo] at h
    subst h
    intro x hx
    exact absurd hx (List.not_mem_nil x)
  | cons hd tl ih =>
    intro evs h
    obtain ⟨strip_idx, strip⟩ := hd
    unfold decodeFrameGo at h
    dsimp only at h
    cases hstrip : decodeStrip strip params ((1 <<< params.code_len) - 1)
        (strip_idx * rows_per_strip * width)
        (min (strip_idx * rows_per_strip + rows_per_strip) height * width) with
    | none => rw [hstrip] at h; exact absurd h (by simp)
    | some evs1 =>
      rw [hstrip] at h
      dsimp only at h
      cases hrest : decodeFrameGo params ((1 <<< params.code_len) - 1) height width
          rows_per_strip tl with
      | none => rw [hrest] at h; exact absurd h (by simp)
      | some evs2 =>
        rw [hrest] at h
        dsimp only at h
        injection h with h
        subst h
        intro x hx
        rcases List.mem_append.mp hx with hx | hx
        · have hbound := decodeStrip_events_bound strip params
            ((1 <<< params.code_len) - 1) (strip_idx * rows_per_strip * width)
            (min (strip_idx * rows_per_strip + rows_per_strip) height * width) evs1 hstrip x hx
          have hrow : min (strip_idx * rows_per_strip + rows_per_strip) height ≤ height :=
            min_le_right _ _
          calc x < min (strip_idx * rows_per_strip + rows_per_strip) height * width := hbound
            _ ≤ height * width := Nat.mul_le_mul_right width hrow
        · exact ih evs2 hrest x hx

/-- Witness for decode_eer_frame_events_in_image: the single-strip frame of
height 1, width 6 whose strip [0x05, 0x00] decodes to one event at flat
index 5, which is below 1 * 6. -/
theorem decode_eer_frame_events_in_image_witness :
    decode_eer_frame [[5, 0]] { code_len := 8, horz_sub_bits := 2, vert_sub_bits := 2 }
      1 6 1 = some [5] ∧ 5 < 1 * 6 :=
  ⟨by decide,
   decode_eer_frame_events_in_image [[5, 0]]
     { code_len := 8, horz_sub_bits := 2, vert_sub_bits := 2 } 1 6 1 [5]
     (by decide) 5 (by simp)⟩

/-- A fold whose later steps all fix the accumulator returns it unchanged. -/
theorem foldl_fixed (f : Nat → Nat → Nat) :
    ∀ (l : List Nat) (c : Nat), (∀ a ∈ l, ∀ x, f x a = x) → l.foldl f c = c := by
  intro l
  induction l with
  | nil => intro c _; rfl
  | cons a tl ih =>
    intro c hfix
    rw [List.foldl_cons, hfix a (List.mem_cons_self a tl) c]
    exact ih c (fun a' ha' x => hfix a' (List.mem_cons_of_mem a ha') x)

/-- Appending zero bytes never changes a `getD _ 0` lookup. -/
theorem getD_append_replicate_zero (b : List Nat) (k j : Nat) :
    (b ++ List.replicate k 0).getD j 0 = b.getD j 0 := by
  rcases lt_or_ge j b.length with hj | hj
  · exact List.getD_append b _ 0 j hj
  · rw [List.getD_eq_default _ _ hj, List.getD_append_right b _ 0 j hj]
    rcases lt_or_ge (j - b.length) k with h2 | h2
    · rw [List.getD_eq_getElem _ _ (by simpa using h2)]
      simp
    · exact List.getD_eq_default _ _ (by simpa using h2)

/-- The 4-byte chunk read by get_bits is unchanged by zero padding appended
to the buffer, provided the starting byte index is within the buffer: the
extra bytes OR in only zero bits. -/
theorem readChunk_append_replicate_zero (b : List Nat) (k bi : Nat) (h : bi ≤ b.length) :
    readChunk (b ++ List.replicate k 0) bi = readChunk b bi := by
  unfold readChunk
  have hlen : (b ++ List.replicate k 0).length = b.length + k := by simp
  rw [hlen]
  have hfun : (fun (c i : Nat) => c ||| (((b ++ List.replicate k 0).getD (bi + i) 0) <<< (i * 8)))
      = fun (c i : Nat) => c ||| ((b.getD (bi + i) 0) <<< (i * 8)) := by
    funext c i
    rw [getD_append_replicate_zero]
  rw [hfun]
  have hle : min 4 (b.length - bi) ≤ min 4 (b.length + k - bi) :=
    min_le_min (le_refl 4) (by omega)
  obtain ⟨d, hd⟩ : ∃ d, min 4 (b.length + k - bi) = min 4 (b.length - bi) + d :=
    ⟨min 4 (b.length + k - bi) - min 4 (b.length - bi), by omega⟩
  rw [hd, List.range_add, List.foldl_append]
  apply foldl_fixed
  intro a ha x
  obtain ⟨j, hj, rfl⟩ := List.mem_map.mp ha
  have hm1lt : min 4 (b.length - bi) < 4 := by
    by_contra hge
    have h4 : min 4 (b.length - bi) = 4 :=
      le_antisymm (min_le_left _ _) (le_of_not_lt hge)
    have h42 : min 4 (b.length + k - bi) ≤ 4 := min_le_left _ _
    have hd0 : d = 0 := by omega
    subst hd0
    simp at hj
  have hm1eq : min 4 (b.length - bi) = b.length - bi :=
    min_eq_right (by omega)
  have hz : b.getD (bi + (min 4 (b.length - bi) + j)) 0 = 0 :=
    List.getD_eq_default _ _ (by omega)
  rw [hz]
  simp

/-- Zero padding appended to a buffer never changes the value returned by a
get_bits call whose starting byte index lies within the original buffer. -/
theorem get_bits_append_zeros (b : List Nat) (p n k : Nat) (h : p / 8 ≤ b.length) :
    ((BitStream.mk (b ++ List.replicate k 0) p).get_bits n).map Prod.fst
      = ((BitStream.mk b p).get_bits n).map Prod.fst := by
  unfold BitStream.get_bits
  dsimp only
  rw [if_pos (by simp; omega), if_pos h, readChunk_append_replicate_zero b k (p / 8) h]
  rfl

/-- C10: get_bits is not total over out-of-range cursors. It returns
exactly when the starting byte index bit_pos / 8 is at most the buffer
length, and in that case appended bytes past the end of the buffer would
only contribute zero bits (implicit zero padding); past that boundary it
panics (none) rather than returning an error value. Since the decode loop
never consults no_bits_left, the strip [0x05, 0x00] over the 10-pixel
range, whose encoded bits are exhausted after its one code word, reads
zero-valued skip codes (which even count as events), and the decode then
reaches the panic rather than an Err. -/
theorem get_bits_zero_pad_then_panic :
    (∀ (bs : BitStream) (n : Nat),
       (bs.get_bits n).isSome ↔ bs.bit_pos / 8 ≤ bs.buffer.length) ∧
    (∀ (b : List Nat) (p n k : Nat), p / 8 ≤ b.length →
       ((BitStream.mk (b ++ List.replicate k 0) p).get_bits n).map Prod.fst
         = ((BitStream.mk b p).get_bits n).map Prod.fst) ∧
    (BitStream.no_bits_left { buffer := [5, 0], bit_pos := 16 } = true ∧
     BitStream.get_bits { buffer := [5, 0], bit_pos := 16 } 8
       = some (0, { buffer := [5, 0], bit_pos := 24 }) ∧
     BitStream.get_bits { buffer := [5, 0], bit_pos := 24 } 8 = none ∧
     decodeStrip [5, 0] { code_len := 8, horz_sub_bits := 2, vert_sub_bits := 2 }
       ((1 <<< 8) - 1) 0 10 = none) :=
  ⟨get_bits_isSome_iff, get_bits_append_zeros,
   by decide, by decide, by decide, by decide⟩

/-- Witness for get_bits_zero_pad_then_panic: reading 8 bits at bit
position 4 of the one-byte buffer [0xAB] returns the same value with or
without three zero bytes appended. -/
theorem get_bits_zero_pad_then_panic_witness :
    ((BitStream.mk ([171] ++ List.replicate 3 0) 4).get_bits 8).map Prod.fst
      = ((BitStream.mk [171] 4).get_bits 8).map Prod.fst :=
  get_bits_zero_pad_then_panic.2.1 [171] 4 8 3 (by decide)
